import Mathlib

/-!
# Verification of the IPET WCET engine specification

The repository ships only the interface `src/lib/Analysis/Ipet/Ipet.h` of the
`ipet::Ipet` class; the implementation file is not among the sources.  The
definitions below therefore model the engine from the specification
(sections 2-8 of spec.md), keeping the names of the header where Lean allows:
`analyze`, `getWCET`, `getWCExecFrequency`, `hasWCET`, `clearResults`,
`reset`, `inProgress`, plus the ILP model builder and the solver contract.
-/

namespace Ipet

/-- Modelled from the spec: a CFG node for the edge model of section 4.1 -
either a basic-block identifier or one of the two virtual entry/exit markers.
The Ipet.cpp implementation is missing from the sources; only Ipet.h is
present. -/
inductive Node where
  | entry : Node
  | blk : Nat → Node
  | exit : Node
deriving DecidableEq, Repr

/-- Modelled from the spec: an edge is an ordered pair of nodes (section 3). -/
abbrev Edge := Node × Node

/-- Modelled from the spec: the relation of a flow fact (section 6). -/
inductive Rel where
  | le : Rel
  | eq : Rel
  | ge : Rel
deriving DecidableEq, Repr

/-- Modelled from the spec: a flow fact is a linear inequality over edge
frequency variables with integer coefficients and an integer bound
(section 3). -/
structure FlowFact where
  lhs : List (Edge × Int)
  rel : Rel
  bound : Int
deriving DecidableEq, Repr

/-- Modelled from the spec: a call site inside a block, with an identifier
used by the CostProvider and an optional statically resolved callee
(section 3). -/
structure CallSite where
  csId : Nat
  callee : Option Nat
deriving DecidableEq, Repr

/-- Modelled from the spec: the read-only host view of a function - blocks,
entry block, ordered successors and the call sites of each block
(section 3). -/
structure Func where
  blocks : List Nat
  entry : Nat
  succ : Nat → List Nat
  calls : Nat → List CallSite

/-- Modelled from the spec: a program bundles the analyzable functions with
the two external providers, CostProvider (costB, costCS) and
FlowFactProvider (flowFacts) (section 6). -/
structure Program where
  funcs : List (Nat × Func)
  costB : Nat → Nat
  costCS : Nat → Nat
  flowFacts : Nat → List FlowFact

/-- Modelled from the spec: the error kinds of section 7. -/
inductive Reason where
  | recursionDetected : Nat → Reason
  | dependencyFailed : Nat → Nat → Reason
  | infeasibleModel : Nat → Reason
  | unboundedModel : Nat → Reason
  | solverNumericalFailure : Nat → Reason
  | malformedFlowFact : Nat → Nat → Reason
deriving DecidableEq, Repr

/-- Modelled from the spec: the per-function analysis status of the
AnalysisRecord (section 3); Done carries either the WCET or the failure
reason. -/
inductive St where
  | notStarted : St
  | inProgress : St
  | doneOk : Nat → St
  | doneFail : Reason → St
deriving DecidableEq, Repr

/-- Modelled from the spec: the mutable analysis state - the per-function
records, the per-block worst-case frequencies, the per-function solved edge
assignment, and (instrumentation for the solver contract) the list of
functions the solver was invoked for. -/
structure AState where
  records : Nat → St
  execFreq : Nat → Option Nat
  edgeFreq : Nat → Option (List (Edge × Nat))
  solved : List Nat

/-- Total successor count, used to bound the reachability worklist. -/
def sumSucc (F : Func) : Nat := (F.blocks.map (fun b => (F.succ b).length)).sum

/-- Modelled from the spec: worklist computation of the blocks reachable from
the entry (section 4.1); unreachable blocks must not appear in the model. -/
def reachStep (F : Func) : Nat → List Nat → List Nat → List Nat
  | _, visited, [] => visited
  | 0, visited, _ :: _ => visited
  | fuel+1, visited, b :: rest =>
    if b ∈ visited ∨ b ∉ F.blocks then reachStep F fuel visited rest
    else reachStep F fuel (visited ++ [b]) (rest ++ F.succ b)

/-- Fuel that lets the worklist drain completely. -/
def bigFuel (F : Func) : Nat := F.blocks.length + sumSucc F + 2

/-- Modelled from the spec: the blocks of a function reachable from its
entry, in worklist order (section 4.1). -/
def reachable (F : Func) : List Nat := reachStep F (bigFuel F) [] [F.entry]

/-- Successor edges of the reachable blocks, with a virtual exit edge out of
every reachable block without successors. -/
def succEdges (F : Func) : List Edge :=
  (reachable F).flatMap (fun b =>
    match F.succ b with
    | [] => [(Node.blk b, Node.exit)]
    | ss => ss.map (fun t => (Node.blk b, Node.blk t)))

/-- Modelled from the spec: the edge model of section 4.1 - a virtual entry
edge into the entry block, a successor edge per CFG edge of a reachable
block, and a virtual exit edge out of every reachable block without
successors. -/
def edgesOf (F : Func) : List Edge :=
  if F.entry ∈ F.blocks then (Node.entry, Node.blk F.entry) :: succEdges F
  else []

/-- Sum of the frequencies of the edges entering block b. -/
def sumIn (a : Edge → Nat) (b : Nat) : List Edge → Nat
  | [] => 0
  | e :: es => (if e.2 = Node.blk b then a e else 0) + sumIn a b es

/-- Sum of the frequencies of the edges leaving block b. -/
def sumOut (a : Edge → Nat) (b : Nat) : List Edge → Nat
  | [] => 0
  | e :: es => (if e.1 = Node.blk b then a e else 0) + sumOut a b es

/-- Incoming frequency sum over a stored edge/frequency list. -/
def pairInSum (b : Nat) : List (Edge × Nat) → Nat
  | [] => 0
  | p :: ps => (if p.1.2 = Node.blk b then p.2 else 0) + pairInSum b ps

/-- Outgoing frequency sum over a stored edge/frequency list. -/
def pairOutSum (b : Nat) : List (Edge × Nat) → Nat
  | [] => 0
  | p :: ps => (if p.1.1 = Node.blk b then p.2 else 0) + pairOutSum b ps

/-- Value of the linear left-hand side of a flow fact under an assignment. -/
def lhsVal (a : Edge → Nat) : List (Edge × Int) → Int
  | [] => 0
  | p :: ps => p.2 * (a p.1 : Int) + lhsVal a ps

/-- Modelled from the spec: whether an assignment satisfies one flow fact
(sections 3 and 6). -/
def evalFact (a : Edge → Nat) (ff : FlowFact) : Bool :=
  match ff.rel with
  | Rel.le => decide (lhsVal a ff.lhs ≤ ff.bound)
  | Rel.eq => decide (lhsVal a ff.lhs = ff.bound)
  | Rel.ge => decide (ff.bound ≤ lhsVal a ff.lhs)

/-- Modelled from the spec: the ILP instance built for one function
(section 4.3): edges (decision variables), reachable blocks, the virtual
entry edge, the per-block local costs (objective row), and the flow facts
(user constraint rows). -/
structure Model where
  edges : List Edge
  blocks : List Nat
  entryEdge : Edge
  costs : List (Nat × Nat)
  facts : List FlowFact
deriving DecidableEq, Repr

/-- Flow conservation rows: for every listed block, incoming sum equals
outgoing sum. -/
def conservB (a : Edge → Nat) (es : List Edge) : List Nat → Bool
  | [] => true
  | b :: bs => decide (sumIn a b es = sumOut a b es) && conservB a es bs

/-- All flow-fact rows hold. -/
def factsB (a : Edge → Nat) : List FlowFact → Bool
  | [] => true
  | ff :: ffs => evalFact a ff && factsB a ffs

/-- Modelled from the spec: feasibility of an assignment for a model - the
virtual entry edge has frequency one, flow conservation holds at every
block, and every flow fact holds (section 4.3). -/
def feasibleB (M : Model) (a : Edge → Nat) : Bool :=
  decide (a M.entryEdge = 1) && conservB a M.edges M.blocks && factsB a M.facts

/-- Propositional form of feasibility. -/
def Feasible (M : Model) (a : Edge → Nat) : Prop := feasibleB M a = true

/-- Objective row: sum of cost times block frequency over the cost list. -/
def objSum (es : List Edge) (a : Edge → Nat) : List (Nat × Nat) → Nat
  | [] => 0
  | p :: ps => p.2 * sumIn a p.1 es + objSum es a ps

/-- Modelled from the spec: the objective value (to maximize) of an
assignment - the cost-weighted sum of block frequencies (section 4.3). -/
def objVal (M : Model) (a : Edge → Nat) : Nat := objSum M.edges a M.costs

/-- Modelled from the spec: the outcome classification of the solver adapter
(section 4.4). -/
inductive SolverResult where
  | optimal : (Edge → Nat) → SolverResult
  | infeasible : SolverResult
  | unbounded : SolverResult
  | numFailure : SolverResult

/-- Modelled from the spec: the external ILP solver as a black box behind
the adapter contract (sections 1 and 4.4). -/
def Solver := Model → SolverResult

/-- Modelled from the spec: the solver contract on one model (section 4.4) -
an optimal answer is a feasible maximizer, infeasible means no feasible
assignment exists, unbounded means the objective is unbounded, and a
numerical failure promises nothing. -/
def SolverOkOn (s : Solver) (M : Model) : Prop :=
  match s M with
  | SolverResult.optimal a =>
      Feasible M a ∧ ∀ x, Feasible M x → objVal M x ≤ objVal M a
  | SolverResult.infeasible => ¬ ∃ x, Feasible M x
  | SolverResult.unbounded => ∀ n, ∃ x, Feasible M x ∧ n < objVal M x
  | SolverResult.numFailure => True

/-- The solver contract on every model. -/
def SolverOk (s : Solver) : Prop := ∀ M, SolverOkOn s M

/-- Lookup of an analyzable function by identity. -/
def lookupFunc (P : Program) (f : Nat) : Option Func := P.funcs.lookup f

/-- Whether an identity denotes an analyzable function of the program. -/
def isFunc (P : Program) (f : Nat) : Bool := (lookupFunc P f).isSome

/-- Modelled from the spec: the nonlocal cost of one call site - the cached
WCET of the resolved callee, or the CostProvider call-site cost for
external/unresolved calls (sections 4.2 and 4.3, header getNonlocalCost). -/
def nonlocalCost (P : Program) (st : AState) (cs : CallSite) : Nat :=
  match cs.callee with
  | some g =>
    if isFunc P g then
      match st.records g with
      | St.doneOk w => w
      | _ => 0
    else P.costCS cs.csId
  | none => P.costCS cs.csId

/-- Sum of the nonlocal costs of a list of call sites. -/
def nlSum (P : Program) (st : AState) : List CallSite → Nat
  | [] => 0
  | cs :: rest => nonlocalCost P st cs + nlSum P st rest

/-- Modelled from the spec: the local cost of a block - its CostProvider
cost plus the summed nonlocal cost of its call sites (section 4.3, header
getCost). -/
def localCost (P : Program) (st : AState) (F : Func) (b : Nat) : Nat :=
  P.costB b + nlSum P st (F.calls b)

/-- Modelled from the spec: the ILP model builder of section 4.3 (header
loadStructure, setObjective, setStructConstraints, setFlowConstraints). -/
def buildModel (P : Program) (st : AState) (f : Nat) (F : Func) : Model :=
  { edges := edgesOf F
    blocks := reachable F
    entryEdge := (Node.entry, Node.blk F.entry)
    costs := (reachable F).map (fun b => (b, localCost P st F b))
    facts := P.flowFacts f }

/-- A flow fact is well formed when every referenced edge exists in the
model. -/
def factOk (es : List Edge) (ff : FlowFact) : Bool :=
  ff.lhs.all (fun p => es.contains p.1)

/-- Index search for the first malformed flow fact. -/
def findMalformedAux (es : List Edge) : List FlowFact → Nat → Option Nat
  | [], _ => none
  | ff :: rest, i => if factOk es ff then findMalformedAux es rest (i+1) else some i

/-- Modelled from the spec: malformed flow facts are detected at model-build
time, before any solver invocation (section 7). -/
def findMalformed (M : Model) : Option Nat := findMalformedAux M.edges M.facts 0

/-- Modelled from the spec: the statically resolvable callees of a function,
in block and call-site order (section 4.2). -/
def directCallees (P : Program) (F : Func) : List Nat :=
  F.blocks.flatMap (fun b => (F.calls b).filterMap (fun cs =>
    match cs.callee with
    | some g => if isFunc P g then some g else none
    | none => none))

/-- Mark a function record InProgress (header setInProgress). -/
def setInProgress (st : AState) (f : Nat) : AState :=
  { st with records := fun g => if g = f then St.inProgress else st.records g }

/-- Set a function record to a Done status. -/
def setDone (st : AState) (f : Nat) (v : St) : AState :=
  { st with records := fun g => if g = f then v else st.records g }

/-- Instrumentation: remember that the solver was invoked for f. -/
def markSolved (st : AState) (f : Nat) : AState :=
  { st with solved := f :: st.solved }

/-- Record a failure for f and report the reason upward (section 7). -/
def finishFail (st : AState) (f : Nat) (r : Reason) : AState × Option Reason :=
  (setDone st f (St.doneFail r), some r)

/-- Modelled from the spec: a function with no edges yields WCET zero
deterministically without invoking the solver (section 4.3). -/
def finishEmpty (st : AState) (f : Nat) : AState × Option Reason :=
  (setDone st f (St.doneOk 0), none)

/-- Modelled from the spec: on an optimal solve, cache the WCET, the
worst-case frequency of every modelled block, and the solved edge
assignment (header readResults). -/
def finishSolved (st : AState) (f : Nat) (M : Model) (a : Edge → Nat) :
    AState × Option Reason :=
  ({ records := fun g => if g = f then St.doneOk (objVal M a) else st.records g
     execFreq := fun b => if b ∈ M.blocks then some (sumIn a b M.edges) else st.execFreq b
     edgeFreq := fun g =>
       if g = f then some (M.edges.map (fun e => (e, a e))) else st.edgeFreq g
     solved := st.solved }, none)

/-- Whether a reason is a recursion rejection. -/
def isRec : Reason → Bool
  | Reason.recursionDetected _ => true
  | _ => false

/-- Modelled from the spec: failure propagation along call-graph dependency
edges - a recursion rejection of a callee keeps the recursion kind for the
caller (section 8 expects RecursionDetected for every member of the cycle),
any other callee failure becomes DependencyFailed(caller, callee)
(section 7). -/
def propagate (f g : Nat) (r : Reason) : Reason :=
  if isRec r then Reason.recursionDetected f else Reason.dependencyFailed f g

/-- Modelled from the spec: build and solve the ILP of one function whose
callees all succeeded - malformed-fact check, empty-model short cut, then
one solver invocation classified per section 4.4. -/
def solveFunc (P : Program) (s : Solver) (st : AState) (f : Nat) (F : Func) :
    AState × Option Reason :=
  let M := buildModel P st f F
  match findMalformed M with
  | some i => finishFail st f (Reason.malformedFlowFact f i)
  | none =>
    if M.edges = [] then finishEmpty st f
    else
      match s M with
      | SolverResult.optimal a => finishSolved (markSolved st f) f M a
      | SolverResult.infeasible => finishFail (markSolved st f) f (Reason.infeasibleModel f)
      | SolverResult.unbounded => finishFail (markSolved st f) f (Reason.unboundedModel f)
      | SolverResult.numFailure =>
          finishFail (markSolved st f) f (Reason.solverNumericalFailure f)

/-- Analyze a list of callees in order, stopping at the first failure and
reporting which callee failed. -/
def runList (step : AState → Nat → AState × Option Reason) :
    AState → List Nat → AState × Option (Nat × Reason)
  | st, [] => (st, none)
  | st, g :: rest =>
    match step st g with
    | (st2, none) => runList step st2 rest
    | (st2, some r) => (st2, some (g, r))

/-- Modelled from the spec: one level of the call-graph walk of section 4.2 -
cached Done results return immediately, an InProgress record is a cycle and
is reported without modifying any record, otherwise the function is marked
InProgress, its resolvable callees are analyzed first, a callee failure
propagates, and else its own ILP is built and solved. -/
def analyzeStep (P : Program) (s : Solver)
    (next : AState → Nat → AState × Option Reason)
    (st : AState) (f : Nat) : AState × Option Reason :=
  match st.records f with
  | St.doneOk _ => (st, none)
  | St.doneFail r => (st, some r)
  | St.inProgress => (st, some (Reason.recursionDetected f))
  | St.notStarted =>
    match lookupFunc P f with
    | none => (st, some (Reason.dependencyFailed f f))
    | some F =>
      match runList next (setInProgress st f) (directCallees P F) with
      | (st2, some gr) => finishFail st2 f (propagate f gr.1 gr.2)
      | (st2, none) => solveFunc P s st2 f F

/-- The call-graph walk with a recursion-depth budget; the nesting depth is
bounded by the number of distinct InProgress functions, so the budget used
by analyze always suffices. -/
def analyzeF (P : Program) (s : Solver) (fuel : Nat) :
    AState → Nat → AState × Option Reason :=
  Nat.rec (fun st f => (st, some (Reason.recursionDetected f)))
    (fun _ ih => analyzeStep P s ih) fuel

/-- Modelled from the spec: the produced query surface analyze(Function) -
success or failure(reason) (sections 4.2 and 6, header analyze). -/
def analyze (P : Program) (s : Solver) (st : AState) (f : Nat) :
    AState × Option Reason :=
  analyzeF P s (P.funcs.length + 1) st f

/-- Modelled from the spec: hasWCET(Function) (header hasWCET). -/
def hasWCET (st : AState) (f : Nat) : Bool :=
  match st.records f with
  | St.doneOk _ => true
  | _ => false

/-- Modelled from the spec: inProgress(Function) (header inProgress). -/
def inProgressQ (st : AState) (f : Nat) : Bool :=
  match st.records f with
  | St.inProgress => true
  | _ => false

/-- Modelled from the spec: getWCET is a pure cache read returning the
result and the untouched state; before a successful analyze it answers
that no result is available (sections 4.2 and 6, header getWCET). -/
def getWCET (st : AState) (f : Nat) : Option Nat × AState :=
  (match st.records f with
   | St.doneOk w => some w
   | _ => none, st)

/-- Modelled from the spec: getWCExecFrequency is a pure cache read of a
block worst-case frequency (header getWCExecFrequency). -/
def getWCExecFrequency (st : AState) (b : Nat) : Option Nat × AState :=
  (st.execFreq b, st)

/-- The state before any analysis. -/
def initState : AState :=
  { records := fun _ => St.notStarted
    execFreq := fun _ => none
    edgeFreq := fun _ => none
    solved := [] }

/-- Modelled from the spec: reset clears the entire analysis state (header
reset). -/
def reset (_ : AState) : AState := initState

/-- Modelled from the spec: clearResults resets a single function record to
NotStarted and invalidates only that cache entry, including the cached
frequencies of its blocks (section 4.2, header clearResults). -/
def clearResults (P : Program) (st : AState) (f : Nat) : AState :=
  { records := fun g => if g = f then St.notStarted else st.records g
    execFreq := fun b =>
      match lookupFunc P f with
      | some F => if b ∈ F.blocks then none else st.execFreq b
      | none => st.execFreq b
    edgeFreq := fun g => if g = f then none else st.edgeFreq g
    solved := st.solved }

/-- clearResults applied to every function of a list. -/
def clearAll (P : Program) (st : AState) (L : List Nat) : AState :=
  L.foldl (clearResults P) st

/-! ## The concrete scenario of section 8 -/

/-- The function of the concrete scenario: blocks entry=0, L=1, exit=2,
edges 0 to 1, 1 to 1, 1 to 2, no call sites. -/
def F1 : Func :=
  { blocks := [0, 1, 2]
    entry := 0
    succ := fun b => if b = 0 then [1] else if b = 1 then [1, 2] else []
    calls := fun _ => [] }

/-- The concrete-scenario program: one function (identity 0) with block
costs 1, 5, 1 and the single flow fact bounding the loop edge by 9. -/
def P1 : Program :=
  { funcs := [(0, F1)]
    costB := fun b => if b = 0 then 1 else if b = 1 then 5 else if b = 2 then 1 else 0
    costCS := fun _ => 0
    flowFacts := fun f =>
      if f = 0 then [⟨[((Node.blk 1, Node.blk 1), 1)], Rel.le, 9⟩] else [] }

/-- The edge list of the concrete scenario. -/
def c1Edges : List Edge :=
  [(Node.entry, Node.blk 0), (Node.blk 0, Node.blk 1), (Node.blk 1, Node.blk 1),
   (Node.blk 1, Node.blk 2), (Node.blk 2, Node.exit)]

/-- The ILP model of the concrete scenario. -/
def c1Model : Model :=
  { edges := c1Edges
    blocks := [0, 1, 2]
    entryEdge := (Node.entry, Node.blk 0)
    costs := [(0, 1), (1, 5), (2, 1)]
    facts := [⟨[((Node.blk 1, Node.blk 1), 1)], Rel.le, 9⟩] }

/-- The optimal assignment of the concrete scenario: loop edge 9, every
other edge 1. -/
def c1a : Edge → Nat := fun e =>
  if e = (Node.blk 1, Node.blk 1) then 9
  else if e = (Node.entry, Node.blk 0) ∨ e = (Node.blk 0, Node.blk 1)
      ∨ e = (Node.blk 1, Node.blk 2) ∨ e = (Node.blk 2, Node.exit) then 1
  else 0

/-- A solver witness: answers the concrete-scenario model optimally and
reports a numerical failure on anything else (which the contract allows). -/
def c1Solver : Solver := fun M =>
  if M = c1Model then SolverResult.optimal c1a else SolverResult.numFailure

instance (M : Model) (a : Edge → Nat) : Decidable (Feasible M a) :=
  inferInstanceAs (Decidable (feasibleB M a = true))

/-! ## Unfolding lemmas for the call-graph walk -/

theorem analyzeF_succ (P : Program) (s : Solver) (n : Nat) (st : AState) (f : Nat) :
    analyzeF P s (n + 1) st f = analyzeStep P s (analyzeF P s n) st f := rfl

theorem analyze_def (P : Program) (s : Solver) (st : AState) (f : Nat) :
    analyze P s st f = analyzeStep P s (analyzeF P s P.funcs.length) st f := rfl

theorem analyze_cachedOk (P : Program) (s : Solver) (st : AState) (f : Nat)
    (w : Nat) (h : st.records f = St.doneOk w) :
    analyze P s st f = (st, none) := by
  rw [analyze_def, analyzeStep, h]

theorem analyze_cachedFail (P : Program) (s : Solver) (st : AState) (f : Nat)
    (r : Reason) (h : st.records f = St.doneFail r) :
    analyze P s st f = (st, some r) := by
  rw [analyze_def, analyzeStep, h]

theorem analyze_inProgress (P : Program) (s : Solver) (st : AState) (f : Nat)
    (h : st.records f = St.inProgress) :
    analyze P s st f = (st, some (Reason.recursionDetected f)) := by
  rw [analyze_def, analyzeStep, h]

theorem analyze_unknown (P : Program) (s : Solver) (st : AState) (f : Nat)
    (h : st.records f = St.notStarted) (hF : lookupFunc P f = none) :
    analyze P s st f = (st, some (Reason.dependencyFailed f f)) := by
  rw [analyze_def, analyzeStep, h, hF]

theorem analyze_notStarted (P : Program) (s : Solver) (st : AState) (f : Nat)
    (F : Func) (h : st.records f = St.notStarted) (hF : lookupFunc P f = some F) :
    analyze P s st f =
      match runList (analyzeF P s P.funcs.length) (setInProgress st f)
          (directCallees P F) with
      | (st2, some gr) => finishFail st2 f (propagate f gr.1 gr.2)
      | (st2, none) => solveFunc P s st2 f F := by
  rw [analyze_def, analyzeStep, h, hF]

theorem analyzeF_succ_notStarted (P : Program) (s : Solver) (n : Nat)
    (st : AState) (f : Nat) (F : Func)
    (h : st.records f = St.notStarted) (hF : lookupFunc P f = some F) :
    analyzeF P s (n + 1) st f =
      match runList (analyzeF P s n) (setInProgress st f) (directCallees P F) with
      | (st2, some gr) => finishFail st2 f (propagate f gr.1 gr.2)
      | (st2, none) => solveFunc P s st2 f F := by
  rw [analyzeF_succ, analyzeStep, h, hF]

theorem analyzeF_succ_inProgress (P : Program) (s : Solver) (n : Nat)
    (st : AState) (f : Nat) (h : st.records f = St.inProgress) :
    analyzeF P s (n + 1) st f = (st, some (Reason.recursionDetected f)) := by
  rw [analyzeF_succ, analyzeStep, h]

/-! ## Record bookkeeping lemmas -/

theorem setInProgress_self (st : AState) (f : Nat) :
    (setInProgress st f).records f = St.inProgress := by
  simp [setInProgress]

theorem setInProgress_other (st : AState) (f g : Nat) (h : g ≠ f) :
    (setInProgress st f).records g = st.records g := by
  simp [setInProgress, h]

theorem setDone_self (st : AState) (f : Nat) (v : St) :
    (setDone st f v).records f = v := by
  simp [setDone]

theorem setDone_other (st : AState) (f g : Nat) (v : St) (h : g ≠ f) :
    (setDone st f v).records g = st.records g := by
  simp [setDone, h]

theorem finishSolved_records_self (st : AState) (f : Nat) (M : Model) (a : Edge → Nat) :
    ((finishSolved st f M a).1).records f = St.doneOk (objVal M a) := by
  simp [finishSolved]

/-- Every exit path of solveFunc marks f Done: success stores a WCET, a
failure stores its reason. -/
theorem solveFunc_cases (P : Program) (s : Solver) (st : AState) (f : Nat) (F : Func) :
    (∃ w st1, solveFunc P s st f F = (st1, none) ∧ st1.records f = St.doneOk w)
    ∨ (∃ r st1, solveFunc P s st f F = (st1, some r) ∧ st1.records f = St.doneFail r) := by
  unfold solveFunc
  rcases hm : findMalformed (buildModel P st f F) with _ | i
  · simp only [hm]
    by_cases he : (buildModel P st f F).edges = []
    · rw [if_pos he]
      exact Or.inl ⟨0, _, rfl, setDone_self ..⟩
    · rw [if_neg he]
      rcases hs : s (buildModel P st f F) with a | _ | _ | _
      · exact Or.inl ⟨_, _, rfl, finishSolved_records_self ..⟩
      · exact Or.inr ⟨_, _, rfl, setDone_self ..⟩
      · exact Or.inr ⟨_, _, rfl, setDone_self ..⟩
      · exact Or.inr ⟨_, _, rfl, setDone_self ..⟩
  · simp only [hm]
    exact Or.inr ⟨_, _, rfl, setDone_self ..⟩

/-- A successful analyze of a NotStarted function decomposes into a
successful callee pass followed by either the empty-model short cut or an
optimal solve of the freshly built model. -/
theorem analyze_success_shape (P : Program) (s : Solver) (st : AState) (f : Nat)
    (F : Func) (h : st.records f = St.notStarted) (hF : lookupFunc P f = some F)
    (hok : (analyze P s st f).2 = none) :
    ∃ st2, runList (analyzeF P s P.funcs.length) (setInProgress st f)
        (directCallees P F) = (st2, none)
      ∧ findMalformed (buildModel P st2 f F) = none
      ∧ (((buildModel P st2 f F).edges = []
            ∧ analyze P s st f = finishEmpty st2 f)
        ∨ (∃ a, s (buildModel P st2 f F) = SolverResult.optimal a
            ∧ (buildModel P st2 f F).edges ≠ []
            ∧ analyze P s st f = finishSolved (markSolved st2 f) f (buildModel P st2 f F) a)) := by
  have hstep := analyze_notStarted P s st f F h hF
  rcases hr : runList (analyzeF P s P.funcs.length) (setInProgress st f)
      (directCallees P F) with ⟨st2, ropt⟩
  rcases ropt with _ | gr
  · refine ⟨st2, rfl, ?_⟩
    rw [hr] at hstep
    simp only at hstep
    rw [hstep] at hok
    unfold solveFunc at hstep hok
    rcases hm : findMalformed (buildModel P st2 f F) with _ | i
    · refine ⟨rfl, ?_⟩
      simp only [hm] at hstep hok
      by_cases he : (buildModel P st2 f F).edges = []
      · rw [if_pos he] at hstep
        exact Or.inl ⟨he, hstep⟩
      · rw [if_neg he] at hstep hok
        rcases hs : s (buildModel P st2 f F) with a | _ | _ | _
        · rw [hs] at hstep
          exact Or.inr ⟨a, rfl, he, hstep⟩
        · rw [hs] at hok; simp [finishFail] at hok
        · rw [hs] at hok; simp [finishFail] at hok
        · rw [hs] at hok; simp [finishFail] at hok
    · simp [hm, finishFail] at hok
  · rw [hr] at hstep
    simp only at hstep
    rw [hstep] at hok
    simp [finishFail] at hok

/-! ## The concrete scenario: structure of the feasible set -/

theorem c1Model_build :
    buildModel P1 (setInProgress initState 0) 0 F1 = c1Model := rfl

/-- Any feasible assignment of the concrete-scenario model pins every
non-loop edge to frequency one and bounds the loop edge by nine. -/
theorem c1_shape (x : Edge → Nat) (hx : Feasible c1Model x) :
    x (Node.entry, Node.blk 0) = 1
    ∧ x (Node.blk 0, Node.blk 1) = 1
    ∧ x (Node.blk 1, Node.blk 2) = 1
    ∧ x (Node.blk 2, Node.exit) = 1
    ∧ x (Node.blk 1, Node.blk 1) ≤ 9 := by
  simp [Feasible, feasibleB, c1Model, c1Edges, conservB, factsB, evalFact,
    sumIn, sumOut, lhsVal] at hx
  omega

/-- The objective of the concrete-scenario model, written out. -/
theorem c1_objVal (x : Edge → Nat) :
    objVal c1Model x =
      1 * x (Node.entry, Node.blk 0)
      + 5 * (x (Node.blk 0, Node.blk 1) + x (Node.blk 1, Node.blk 1))
      + 1 * x (Node.blk 1, Node.blk 2) := by
  simp [objVal, objSum, sumIn, c1Model, c1Edges]
  ring

/-- No feasible assignment of the concrete-scenario model exceeds
objective 52. -/
theorem c1_opt (x : Edge → Nat) (hx : Feasible c1Model x) :
    objVal c1Model x ≤ 52 := by
  obtain ⟨h1, h2, h3, h4, h5⟩ := c1_shape x hx
  rw [c1_objVal]
  omega

/-- The witness solver satisfies the solver contract. -/
theorem c1Solver_ok : SolverOk c1Solver := by
  intro M
  unfold SolverOkOn c1Solver
  by_cases h : M = c1Model
  · subst h
    rw [if_pos rfl]
    refine ⟨by decide, ?_⟩
    intro x hx
    have hub := c1_opt x hx
    have hval : objVal c1Model c1a = 52 := by decide
    omega
  · rw [if_neg h]
    trivial

theorem c1_sumIn0 (a : Edge → Nat) :
    sumIn a 0 c1Model.edges = a (Node.entry, Node.blk 0) := by
  simp [sumIn, c1Model, c1Edges]

theorem c1_sumIn1 (a : Edge → Nat) :
    sumIn a 1 c1Model.edges
      = a (Node.blk 0, Node.blk 1) + a (Node.blk 1, Node.blk 1) := by
  simp [sumIn, c1Model, c1Edges]

theorem c1_sumIn2 (a : Edge → Nat) :
    sumIn a 2 c1Model.edges = a (Node.blk 1, Node.blk 2) := by
  simp [sumIn, c1Model, c1Edges]

/-- C1: on the concrete scenario (blocks entry, L, exit with costs 1, 5, 1,
self loop on L bounded by 9) analyze succeeds, the worst-case frequencies
are 1 for entry and exit and 10 for L, and the WCET is 52. -/
theorem c1_concrete_scenario (s : Solver) (a : Edge → Nat)
    (hs : SolverOk s) (ha : s c1Model = SolverResult.optimal a) :
    (analyze P1 s initState 0).2 = none
    ∧ (getWCET (analyze P1 s initState 0).1 0).1 = some 52
    ∧ (getWCExecFrequency (analyze P1 s initState 0).1 0).1 = some 1
    ∧ (getWCExecFrequency (analyze P1 s initState 0).1 1).1 = some 10
    ∧ (getWCExecFrequency (analyze P1 s initState 0).1 2).1 = some 1 := by
  have hok0 := hs c1Model
  unfold SolverOkOn at hok0
  rw [ha] at hok0
  obtain ⟨hfeas, hopt⟩ := hok0
  obtain ⟨h1, h2, h3, h4, h5⟩ := c1_shape a hfeas
  have hub := c1_opt a hfeas
  have hlb : objVal c1Model c1a ≤ objVal c1Model a := hopt c1a (by decide)
  have hca : objVal c1Model c1a = 52 := by decide
  have hval : objVal c1Model a = 52 := by omega
  have hexpr := c1_objVal a
  have hloop : a (Node.blk 1, Node.blk 1) = 9 := by omega
  have hstep := analyze_notStarted P1 s initState 0 F1 rfl rfl
  have hrun : runList (analyzeF P1 s P1.funcs.length) (setInProgress initState 0)
      (directCallees P1 F1) = (setInProgress initState 0, none) := rfl
  rw [hrun] at hstep
  simp only at hstep
  have hsolve : solveFunc P1 s (setInProgress initState 0) 0 F1 =
      (match s c1Model with
       | SolverResult.optimal a =>
           finishSolved (markSolved (setInProgress initState 0) 0) 0 c1Model a
       | SolverResult.infeasible =>
           finishFail (markSolved (setInProgress initState 0) 0) 0
             (Reason.infeasibleModel 0)
       | SolverResult.unbounded =>
           finishFail (markSolved (setInProgress initState 0) 0) 0
             (Reason.unboundedModel 0)
       | SolverResult.numFailure =>
           finishFail (markSolved (setInProgress initState 0) 0) 0
             (Reason.solverNumericalFailure 0)) := rfl
  rw [hsolve, ha] at hstep
  simp only at hstep
  rw [hstep]
  refine ⟨rfl, ?_, ?_, ?_, ?_⟩
  · simp [getWCET, finishSolved, hval]
  · rw [show (getWCExecFrequency (finishSolved
        (markSolved (setInProgress initState 0) 0) 0 c1Model a).1 0).1
      = some (sumIn a 0 c1Model.edges) from rfl, c1_sumIn0]
    simp only [Option.some.injEq]
    omega
  · rw [show (getWCExecFrequency (finishSolved
        (markSolved (setInProgress initState 0) 0) 0 c1Model a).1 1).1
      = some (sumIn a 1 c1Model.edges) from rfl, c1_sumIn1]
    simp only [Option.some.injEq]
    omega
  · rw [show (getWCExecFrequency (finishSolved
        (markSolved (setInProgress initState 0) 0) 0 c1Model a).1 2).1
      = some (sumIn a 2 c1Model.edges) from rfl, c1_sumIn2]
    simp only [Option.some.injEq]
    omega

/-- Witness for c1_concrete_scenario: the concrete witness solver
discharges both hypotheses. -/
theorem c1_concrete_scenario_witness :
    (analyze P1 c1Solver initState 0).2 = none
    ∧ (getWCET (analyze P1 c1Solver initState 0).1 0).1 = some 52
    ∧ (getWCExecFrequency (analyze P1 c1Solver initState 0).1 0).1 = some 1
    ∧ (getWCExecFrequency (analyze P1 c1Solver initState 0).1 1).1 = some 10
    ∧ (getWCExecFrequency (analyze P1 c1Solver initState 0).1 2).1 = some 1 :=
  c1_concrete_scenario c1Solver c1a c1Solver_ok rfl

/-- C4: a second analyze of the same function returns the same outcome and
leaves the state untouched - in particular the cached WCET and block
frequencies are identical and the solver is not invoked again (the second
call may even use a different solver; the instrumentation list of solved
functions does not grow). -/
theorem c4_idempotent (P : Program) (s sND : Solver) (st0 : AState) (f : Nat) :
    analyze P sND (analyze P s st0 f).1 f = analyze P s st0 f
    ∧ (analyze P sND (analyze P s st0 f).1 f).1.solved = (analyze P s st0 f).1.solved
    ∧ (getWCET (analyze P sND (analyze P s st0 f).1 f).1 f).1
        = (getWCET (analyze P s st0 f).1 f).1
    ∧ ∀ b, (analyze P sND (analyze P s st0 f).1 f).1.execFreq b
        = (analyze P s st0 f).1.execFreq b := by
  have main : analyze P sND (analyze P s st0 f).1 f = analyze P s st0 f := by
    rcases h : st0.records f with _ | _ | w | r
    · rcases hF : lookupFunc P f with _ | F
      · rw [analyze_unknown P s st0 f h hF]
        exact analyze_unknown P sND st0 f h hF
      · have h1 := analyze_notStarted P s st0 f F h hF
        rcases hr : runList (analyzeF P s P.funcs.length) (setInProgress st0 f)
            (directCallees P F) with ⟨st2, ropt⟩
        rw [hr] at h1
        rcases ropt with _ | gr
        · simp only at h1
          rcases solveFunc_cases P s st2 f F with ⟨w, st1, heq, hrec⟩ | ⟨r, st1, heq, hrec⟩
          · rw [h1, heq]
            exact analyze_cachedOk P sND st1 f w hrec
          · rw [h1, heq]
            exact analyze_cachedFail P sND st1 f r hrec
        · simp only at h1
          rw [h1]
          exact analyze_cachedFail P sND _ f _ (setDone_self ..)
    · rw [analyze_inProgress P s st0 f h]
      exact analyze_inProgress P sND st0 f h
    · rw [analyze_cachedOk P s st0 f w h]
      exact analyze_cachedOk P sND st0 f w h
    · rw [analyze_cachedFail P s st0 f r h]
      exact analyze_cachedFail P sND st0 f r h
  exact ⟨main, by rw [main], by rw [main], fun b => by rw [main]⟩

/-- The reason shapes of section 7. -/
def kindListed (r : Reason) : Prop :=
  (∃ g, r = Reason.recursionDetected g)
  ∨ (∃ g h, r = Reason.dependencyFailed g h)
  ∨ (∃ g, r = Reason.infeasibleModel g)
  ∨ (∃ g, r = Reason.unboundedModel g)
  ∨ (∃ g, r = Reason.solverNumericalFailure g)
  ∨ (∃ g i, r = Reason.malformedFlowFact g i)

/-- C6: analyze answers success or a failure whose reason is one of the six
error kinds of section 7, and that reason is the one reported to the
caller. -/
theorem c6_reason_kinds (P : Program) (s : Solver) (st : AState) (f : Nat) :
    (analyze P s st f).2 = none
    ∨ ∃ r, (analyze P s st f).2 = some r ∧ kindListed r := by
  rcases h : (analyze P s st f).2 with _ | r
  · exact Or.inl rfl
  · refine Or.inr ⟨r, rfl, ?_⟩
    cases r <;> simp [kindListed]

/-- C9: getWCET and getWCExecFrequency are pure cache reads - they return
the state unchanged - and before any successful analyze of the owning
function they answer that no result is available. -/
theorem c9_pure_queries (st : AState) (f b : Nat) :
    (getWCET st f).2 = st
    ∧ (getWCExecFrequency st b).2 = st
    ∧ (st.records f = St.notStarted → (getWCET st f).1 = none)
    ∧ (getWCExecFrequency initState b).1 = none := by
  refine ⟨rfl, rfl, ?_, rfl⟩
  intro h
  simp [getWCET, h]

/-- Witness for c9_pure_queries at the initial state. -/
theorem c9_pure_queries_witness :
    (getWCET initState 5).2 = initState ∧ (getWCET initState 5).1 = none := by
  obtain ⟨h1, _, h3, _⟩ := c9_pure_queries initState 5 5
  exact ⟨h1, h3 rfl⟩

/-! ## Feasibility consequences of the solver contract -/

theorem conserv_extract (a : Edge → Nat) (es : List Edge) :
    ∀ bs, conservB a es bs = true → ∀ b ∈ bs, sumIn a b es = sumOut a b es := by
  intro bs
  induction bs with
  | nil => intro _ b hb; simp at hb
  | cons c cs ih =>
    intro h b hb
    rw [conservB, Bool.and_eq_true, decide_eq_true_eq] at h
    rcases List.mem_cons.mp hb with hbc | hbc
    · exact hbc ▸ h.1
    · exact ih h.2 b hbc

theorem feasible_parts (M : Model) (a : Edge → Nat) (h : Feasible M a) :
    a M.entryEdge = 1
    ∧ ∀ b ∈ M.blocks, sumIn a b M.edges = sumOut a b M.edges := by
  unfold Feasible feasibleB at h
  rw [Bool.and_eq_true, Bool.and_eq_true] at h
  exact ⟨of_decide_eq_true h.1.1, conserv_extract a M.edges M.blocks h.1.2⟩

theorem pairInSum_map (a : Edge → Nat) (b : Nat) :
    ∀ es : List Edge, pairInSum b (es.map (fun e => (e, a e))) = sumIn a b es := by
  intro es
  induction es with
  | nil => rfl
  | cons e es ih => simp [pairInSum, sumIn, ih]

theorem pairOutSum_map (a : Edge → Nat) (b : Nat) :
    ∀ es : List Edge, pairOutSum b (es.map (fun e => (e, a e))) = sumOut a b es := by
  intro es
  induction es with
  | nil => rfl
  | cons e es ih => simp [pairOutSum, sumOut, ih]

theorem reachStep_entry_notMem (F : Func) (h : F.entry ∉ F.blocks) :
    ∀ fuel, reachStep F fuel [] [F.entry] = [] := by
  intro fuel
  cases fuel with
  | zero => rfl
  | succ n =>
    rw [reachStep, if_pos (Or.inr h)]
    cases n <;> rfl

theorem reachable_nil (F : Func) (h : F.entry ∉ F.blocks) : reachable F = [] :=
  reachStep_entry_notMem F h (bigFuel F)

theorem edgesOf_eq_nil (F : Func) (h : edgesOf F = []) : F.entry ∉ F.blocks := by
  intro hc
  rw [edgesOf, if_pos hc] at h
  simp at h

theorem edgesOf_cons (F : Func) (hc : F.entry ∈ F.blocks) :
    edgesOf F = (Node.entry, Node.blk F.entry) :: succEdges F := by
  rw [edgesOf, if_pos hc]

/-- C2: for every solved function, at every block of its model the incoming
edge-frequency sum of the returned assignment equals the outgoing sum, and
both equal the cached worst-case execution frequency of the block. -/
theorem c2_flow_conservation (P : Program) (s : Solver) (st0 : AState)
    (f : Nat) (F : Func) (hs : SolverOk s)
    (h0 : st0.records f = St.notStarted) (hF : lookupFunc P f = some F)
    (hok : (analyze P s st0 f).2 = none) :
    ∀ b ∈ reachable F, ∃ l, (analyze P s st0 f).1.edgeFreq f = some l
      ∧ pairInSum b l = pairOutSum b l
      ∧ (analyze P s st0 f).1.execFreq b = some (pairInSum b l) := by
  obtain ⟨st2, hrun, hmal, hcases⟩ := analyze_success_shape P s st0 f F h0 hF hok
  rcases hcases with ⟨he, heq⟩ | ⟨a, hsa, hne, heq⟩
  · intro b hb
    exfalso
    have hmem : F.entry ∉ F.blocks := edgesOf_eq_nil F he
    rw [reachable_nil F hmem] at hb
    simp at hb
  · intro b hb
    have hfeas : Feasible (buildModel P st2 f F) a := by
      have hcon := hs (buildModel P st2 f F)
      unfold SolverOkOn at hcon
      rw [hsa] at hcon
      exact hcon.1
    obtain ⟨hentry, hcons⟩ := feasible_parts _ _ hfeas
    refine ⟨(buildModel P st2 f F).edges.map (fun e => (e, a e)), ?_, ?_, ?_⟩
    · rw [heq]
      simp [finishSolved, markSolved]
    · rw [pairInSum_map, pairOutSum_map]
      exact hcons b hb
    · rw [heq]
      simp only [finishSolved, markSolved]
      rw [if_pos (show b ∈ (buildModel P st2 f F).blocks from hb), pairInSum_map]

/-- Witness for c2_flow_conservation: the concrete scenario at block L. -/
theorem c2_flow_conservation_witness :
    ∃ l, (analyze P1 c1Solver initState 0).1.edgeFreq 0 = some l
      ∧ pairInSum 1 l = pairOutSum 1 l
      ∧ (analyze P1 c1Solver initState 0).1.execFreq 1 = some (pairInSum 1 l) :=
  c2_flow_conservation P1 c1Solver initState 0 F1 c1Solver_ok rfl rfl rfl 1 (by decide)

/-- C7: the virtual entry edge has frequency exactly one in the solved
assignment stored by every successful analyze of a nonempty function. -/
theorem c7_entry_normalization (P : Program) (s : Solver) (st0 : AState)
    (f : Nat) (F : Func) (hs : SolverOk s)
    (h0 : st0.records f = St.notStarted) (hF : lookupFunc P f = some F)
    (hne : edgesOf F ≠ []) (hok : (analyze P s st0 f).2 = none) :
    ∃ l, (analyze P s st0 f).1.edgeFreq f = some l
      ∧ l.lookup (Node.entry, Node.blk F.entry) = some 1 := by
  obtain ⟨st2, hrun, hmal, hcases⟩ := analyze_success_shape P s st0 f F h0 hF hok
  rcases hcases with ⟨he, heq⟩ | ⟨a, hsa, hne2, heq⟩
  · exact absurd he hne
  · have hfeas : Feasible (buildModel P st2 f F) a := by
      have hcon := hs (buildModel P st2 f F)
      unfold SolverOkOn at hcon
      rw [hsa] at hcon
      exact hcon.1
    obtain ⟨hentry, _⟩ := feasible_parts _ _ hfeas
    have hmem : F.entry ∈ F.blocks := by
      by_contra hc
      exact hne (by rw [edgesOf, if_neg hc])
    refine ⟨(buildModel P st2 f F).edges.map (fun e => (e, a e)), ?_, ?_⟩
    · rw [heq]
      simp [finishSolved, markSolved]
    · have hed : (buildModel P st2 f F).edges
          = (Node.entry, Node.blk F.entry) :: succEdges F := edgesOf_cons F hmem
      rw [hed]
      simp only [List.map_cons, List.lookup]
      rw [beq_self_eq_true]
      simp only [Option.some.injEq]
      have : (buildModel P st2 f F).entryEdge = (Node.entry, Node.blk F.entry) := rfl
      rw [← this]
      exact hentry

/-- Witness for c7_entry_normalization: the concrete scenario. -/
theorem c7_entry_normalization_witness :
    ∃ l, (analyze P1 c1Solver initState 0).1.edgeFreq 0 = some l
      ∧ l.lookup (Node.entry, Node.blk F1.entry) = some 1 :=
  c7_entry_normalization P1 c1Solver initState 0 F1 c1Solver_ok rfl rfl
    (by decide) rfl

/-! ## Length plumbing for the recursion-depth budget -/

theorem lookup_some_length {α : Type} (l : List (Nat × α)) (k : Nat) (v : α)
    (h : l.lookup k = some v) : 1 ≤ l.length := by
  cases l with
  | nil => simp [List.lookup] at h
  | cons p t => simp

theorem lookup_two_length {α : Type} (l : List (Nat × α)) (k1 k2 : Nat)
    (v1 v2 : α) (h1 : l.lookup k1 = some v1) (h2 : l.lookup k2 = some v2)
    (hne : k1 ≠ k2) : 2 ≤ l.length := by
  induction l with
  | nil => simp [List.lookup] at h1
  | cons p t ih =>
    rcases p with ⟨a, b⟩
    by_cases hk1 : k1 = a
    · have hk2 : ¬ k2 = a := fun hc => hne (hk1.trans hc.symm)
      simp only [List.lookup, beq_eq_false_iff_ne.mpr hk2] at h2
      have := lookup_some_length t k2 v2 h2
      simp only [List.length_cons]
      omega
    · by_cases hk2 : k2 = a
      · simp only [List.lookup, beq_eq_false_iff_ne.mpr hk1] at h1
        have := lookup_some_length t k1 v1 h1
        simp only [List.length_cons]
        omega
      · simp only [List.lookup, beq_eq_false_iff_ne.mpr hk1] at h1
        simp only [List.lookup, beq_eq_false_iff_ne.mpr hk2] at h2
        have := ih h1 h2
        simp only [List.length_cons]
        omega

/-- C3: a direct mutual recursion between two functions is rejected - the
top-level analyze reports RecursionDetected for the requested function, both
cycle members are cached as RecursionDetected failures, neither gets a WCET,
and the record of every other function is untouched. -/
theorem c3_recursion_rejected (P : Program) (s : Solver) (st0 : AState)
    (fA fB : Nat) (FA FB : Func)
    (hA : lookupFunc P fA = some FA) (hB : lookupFunc P fB = some FB)
    (hne : fA ≠ fB)
    (hcA : directCallees P FA = [fB]) (hcB : directCallees P FB = [fA])
    (h0A : st0.records fA = St.notStarted) (h0B : st0.records fB = St.notStarted) :
    (analyze P s st0 fA).2 = some (Reason.recursionDetected fA)
    ∧ (analyze P s st0 fA).1.records fA
        = St.doneFail (Reason.recursionDetected fA)
    ∧ (analyze P s st0 fA).1.records fB
        = St.doneFail (Reason.recursionDetected fB)
    ∧ hasWCET (analyze P s st0 fA).1 fA = false
    ∧ hasWCET (analyze P s st0 fA).1 fB = false
    ∧ ∀ g, g ≠ fA → g ≠ fB → (analyze P s st0 fA).1.records g = st0.records g := by
  obtain ⟨m, hm⟩ : ∃ m, P.funcs.length = (m + 1) + 1 := by
    have hlen : 2 ≤ P.funcs.length :=
      lookup_two_length P.funcs fA fB FA FB hA hB hne
    exact ⟨P.funcs.length - 2, by omega⟩
  have h1 := analyze_notStarted P s st0 fA FA h0A hA
  rw [hcA] at h1
  have hrecB : (setInProgress st0 fA).records fB = St.notStarted := by
    rw [setInProgress_other st0 fA fB hne.symm]
    exact h0B
  have h2 := analyzeF_succ_notStarted P s (m + 1) (setInProgress st0 fA) fB FB hrecB hB
  rw [hcB] at h2
  have hrecA2 : (setInProgress (setInProgress st0 fA) fB).records fA
      = St.inProgress := by
    rw [setInProgress_other _ fB fA hne, setInProgress_self]
  have h3 := analyzeF_succ_inProgress P s m
    (setInProgress (setInProgress st0 fA) fB) fA hrecA2
  have h4 : runList (analyzeF P s (m + 1))
      (setInProgress (setInProgress st0 fA) fB) [fA]
      = (setInProgress (setInProgress st0 fA) fB,
         some (fA, Reason.recursionDetected fA)) := by
    simp [runList, h3]
  rw [h4] at h2
  simp only at h2
  have hprop : propagate fB fA (Reason.recursionDetected fA)
      = Reason.recursionDetected fB := by
    simp [propagate, isRec]
  rw [hprop] at h2
  have h5 : runList (analyzeF P s P.funcs.length) (setInProgress st0 fA) [fB]
      = (setDone (setInProgress (setInProgress st0 fA) fB) fB
          (St.doneFail (Reason.recursionDetected fB)),
         some (fB, Reason.recursionDetected fB)) := by
    rw [hm]
    simp [runList, h2, finishFail]
  rw [h5] at h1
  simp only at h1
  have hprop2 : propagate fA fB (Reason.recursionDetected fB)
      = Reason.recursionDetected fA := by
    simp [propagate, isRec]
  rw [hprop2] at h1
  rw [h1]
  unfold finishFail
  refine ⟨rfl, setDone_self .., ?_, ?_, ?_, ?_⟩
  · rw [setDone_other _ fA fB _ hne.symm, setDone_self]
  · simp [hasWCET, setDone_self]
  · rw [show (setDone (setDone (setInProgress (setInProgress st0 fA) fB) fB
        (St.doneFail (Reason.recursionDetected fB)) ) fA
        (St.doneFail (Reason.recursionDetected fA)), some (Reason.recursionDetected fA)).1
      = setDone (setDone (setInProgress (setInProgress st0 fA) fB) fB
        (St.doneFail (Reason.recursionDetected fB))) fA
        (St.doneFail (Reason.recursionDetected fA)) from rfl]
    simp only [hasWCET]
    rw [setDone_other _ fA fB _ hne.symm, setDone_self]
  · intro g hgA hgB
    rw [show (setDone (setDone (setInProgress (setInProgress st0 fA) fB) fB
        (St.doneFail (Reason.recursionDetected fB))) fA
        (St.doneFail (Reason.recursionDetected fA)), some (Reason.recursionDetected fA)).1
      = setDone (setDone (setInProgress (setInProgress st0 fA) fB) fB
        (St.doneFail (Reason.recursionDetected fB))) fA
        (St.doneFail (Reason.recursionDetected fA)) from rfl]
    rw [setDone_other _ fA g _ hgA, setDone_other _ fB g _ hgB,
      setInProgress_other _ fB g hgB, setInProgress_other _ fA g hgA]

/-- Function A of the mutual-recursion witness program. -/
def FA3 : Func :=
  { blocks := [20], entry := 20, succ := fun _ => []
    calls := fun b => if b = 20 then [⟨0, some 11⟩] else [] }

/-- Function B of the mutual-recursion witness program. -/
def FB3 : Func :=
  { blocks := [21], entry := 21, succ := fun _ => []
    calls := fun b => if b = 21 then [⟨1, some 10⟩] else [] }

/-- The mutual-recursion witness program: 10 calls 11 and 11 calls 10. -/
def P3 : Program :=
  { funcs := [(10, FA3), (11, FB3)]
    costB := fun _ => 1
    costCS := fun _ => 0
    flowFacts := fun _ => [] }

/-- Witness for c3_recursion_rejected on the two-function cycle program. -/
theorem c3_recursion_rejected_witness :
    (analyze P3 c1Solver initState 10).2 = some (Reason.recursionDetected 10)
    ∧ (analyze P3 c1Solver initState 10).1.records 11
        = St.doneFail (Reason.recursionDetected 11)
    ∧ hasWCET (analyze P3 c1Solver initState 10).1 10 = false := by
  obtain ⟨a1, a2, a3, a4, a5, a6⟩ :=
    c3_recursion_rejected P3 c1Solver initState 10 11 FA3 FB3 rfl rfl
      (by decide) (by decide) (by decide) rfl rfl
  exact ⟨a1, a3, a4⟩

/-- With a contract-satisfying solver, a function whose model admits no
feasible assignment always fails, with a non-recursion reason, marking its
record and at most adding itself to the solver-invocation list. -/
theorem solveFunc_fail_noFeasible (P : Program) (s : Solver) (st : AState)
    (f : Nat) (F : Func) (hs : SolverOk s) (hE : edgesOf F ≠ [])
    (hInf : ∀ x, ¬ Feasible (buildModel P st f F) x) :
    ∃ r stB, solveFunc P s st f F = (stB, some r) ∧ isRec r = false
      ∧ stB.records f = St.doneFail r
      ∧ (stB.solved = st.solved ∨ stB.solved = f :: st.solved) := by
  unfold solveFunc
  rcases hmf : findMalformed (buildModel P st f F) with _ | i
  · simp only [hmf]
    rw [if_neg (show ¬ (buildModel P st f F).edges = [] from hE)]
    rcases hsm : s (buildModel P st f F) with a | _ | _ | _
    · exfalso
      have hcon := hs (buildModel P st f F)
      unfold SolverOkOn at hcon
      rw [hsm] at hcon
      exact hInf a hcon.1
    · exact ⟨_, _, rfl, rfl, setDone_self .., Or.inr rfl⟩
    · exact ⟨_, _, rfl, rfl, setDone_self .., Or.inr rfl⟩
    · exact ⟨_, _, rfl, rfl, setDone_self .., Or.inr rfl⟩
  · simp only [hmf]
    exact ⟨_, _, rfl, rfl, setDone_self .., Or.inl rfl⟩

/-- C5: if the model of the single direct callee B of A is infeasible, then
analyze(A) fails with DependencyFailed(A, B), the solver is never invoked
for A's own model (A never enters the solver-invocation list), and no WCET
is cached for A. -/
theorem c5_dependency_propagation (P : Program) (s : Solver) (st0 : AState)
    (fA fB : Nat) (FA FB : Func) (hs : SolverOk s)
    (hA : lookupFunc P fA = some FA) (hB : lookupFunc P fB = some FB)
    (hne : fA ≠ fB)
    (hcA : directCallees P FA = [fB]) (hcB : directCallees P FB = [])
    (h0A : st0.records fA = St.notStarted) (h0B : st0.records fB = St.notStarted)
    (hE : edgesOf FB ≠ [])
    (hInf : ∀ x, ¬ Feasible (buildModel P st0 fB FB) x)
    (hsol : fA ∉ st0.solved) :
    (analyze P s st0 fA).2 = some (Reason.dependencyFailed fA fB)
    ∧ hasWCET (analyze P s st0 fA).1 fA = false
    ∧ fA ∉ (analyze P s st0 fA).1.solved := by
  obtain ⟨m, hm⟩ : ∃ m, P.funcs.length = m + 1 := by
    have := lookup_some_length P.funcs fA FA hA
    exact ⟨P.funcs.length - 1, by omega⟩
  have h1 := analyze_notStarted P s st0 fA FA h0A hA
  rw [hcA] at h1
  have hrecB : (setInProgress st0 fA).records fB = St.notStarted := by
    rw [setInProgress_other st0 fA fB hne.symm]
    exact h0B
  have h2 := analyzeF_succ_notStarted P s m (setInProgress st0 fA) fB FB hrecB hB
  rw [hcB] at h2
  have h2' : analyzeF P s (m + 1) (setInProgress st0 fA) fB
      = solveFunc P s (setInProgress (setInProgress st0 fA) fB) fB FB :=
    h2.trans rfl
  obtain ⟨rB, stB, hsolve, hrecr, hmark, hsolved⟩ :=
    solveFunc_fail_noFeasible P s (setInProgress (setInProgress st0 fA) fB)
      fB FB hs hE hInf
  have h5 : runList (analyzeF P s P.funcs.length) (setInProgress st0 fA) [fB]
      = (stB, some (fB, rB)) := by
    rw [hm]
    simp [runList, h2', hsolve]
  rw [h5] at h1
  simp only at h1
  have hprop : propagate fA fB rB = Reason.dependencyFailed fA fB := by
    simp [propagate, hrecr]
  rw [hprop] at h1
  rw [h1]
  unfold finishFail
  refine ⟨rfl, ?_, ?_⟩
  · simp [hasWCET, setDone_self]
  · show fA ∉ (setDone stB fA
      (St.doneFail (Reason.dependencyFailed fA fB))).solved
    have hsts : (setDone stB fA
        (St.doneFail (Reason.dependencyFailed fA fB))).solved = stB.solved := rfl
    rw [hsts]
    rcases hsolved with hss | hss <;> rw [hss]
    · exact hsol
    · intro hmem
      rcases List.mem_cons.mp hmem with hc | hc
      · exact hne hc
      · exact hsol hc

/-- Callee function of the infeasible-dependency witness program: one block
whose entry edge is forced to zero by a flow fact, contradicting entry
normalization. -/
def FB5 : Func :=
  { blocks := [40], entry := 40, succ := fun _ => [], calls := fun _ => [] }

/-- Caller function of the infeasible-dependency witness program. -/
def FA5 : Func :=
  { blocks := [30], entry := 30, succ := fun _ => []
    calls := fun b => if b = 30 then [⟨2, some 31⟩] else [] }

/-- The infeasible-dependency witness program: 30 calls 31, and 31 carries
the contradictory flow fact. -/
def P5 : Program :=
  { funcs := [(30, FA5), (31, FB5)]
    costB := fun _ => 1
    costCS := fun _ => 0
    flowFacts := fun f =>
      if f = 31 then [⟨[((Node.entry, Node.blk 40), 1)], Rel.le, 0⟩] else [] }

/-- The model of function 31 of the witness program is infeasible. -/
theorem c5_infeasible : ∀ x, ¬ Feasible (buildModel P5 initState 31 FB5) x := by
  intro x hx
  unfold Feasible feasibleB at hx
  rw [Bool.and_eq_true, Bool.and_eq_true] at hx
  have h1 : x (Node.entry, Node.blk 40) = 1 := of_decide_eq_true hx.1.1
  have h2 := hx.2
  simp [factsB, evalFact, lhsVal, buildModel, P5, h1] at h2

/-- Witness for c5_dependency_propagation on the concrete two-function
program with an infeasible callee. -/
theorem c5_dependency_propagation_witness :
    (analyze P5 c1Solver initState 30).2 = some (Reason.dependencyFailed 30 31)
    ∧ hasWCET (analyze P5 c1Solver initState 30).1 30 = false
    ∧ 30 ∉ (analyze P5 c1Solver initState 30).1.solved :=
  c5_dependency_propagation P5 c1Solver initState 30 31 FA5 FB5 c1Solver_ok
    rfl rfl (by decide) (by decide) (by decide) rfl rfl (by decide)
    c5_infeasible (by decide)

/-! ## Monotonicity of the objective in the block costs -/

theorem feasible_same_struct (M M' : Model) (x : Edge → Nat)
    (he : M.edges = M'.edges) (hb : M.blocks = M'.blocks)
    (hn : M.entryEdge = M'.entryEdge) (hf : M.facts = M'.facts) :
    Feasible M x ↔ Feasible M' x := by
  unfold Feasible feasibleB
  rw [he, hb, hn, hf]

theorem objSum_map_mono (es : List Edge) (x : Edge → Nat) (c c' : Nat → Nat) :
    ∀ L : List Nat, (∀ b ∈ L, c b ≤ c' b) →
      objSum es x (L.map (fun b => (b, c b)))
        ≤ objSum es x (L.map (fun b => (b, c' b))) := by
  intro L
  induction L with
  | nil => intro _; exact le_refl _
  | cons b bs ih =>
    intro h
    simp only [List.map_cons, objSum]
    have h1 : c b ≤ c' b := h b (List.mem_cons_self ..)
    have h2 := ih (fun g hg => h g (List.mem_cons_of_mem _ hg))
    have h3 := Nat.mul_le_mul_right (sumIn x b es) h1
    omega

theorem lookupFunc_eq (P Q : Program) (hfuncs : Q.funcs = P.funcs) (g : Nat) :
    lookupFunc Q g = lookupFunc P g := by
  unfold lookupFunc
  rw [hfuncs]

theorem isFunc_eq (P Q : Program) (hfuncs : Q.funcs = P.funcs) (g : Nat) :
    isFunc Q g = isFunc P g := by
  unfold isFunc
  rw [lookupFunc_eq P Q hfuncs g]

theorem directCallees_eq (P Q : Program) (hfuncs : Q.funcs = P.funcs)
    (G : Func) : directCallees Q G = directCallees P G := by
  unfold directCallees
  simp only [isFunc_eq P Q hfuncs]

theorem nonlocalCost_eq (P Q : Program) (hfuncs : Q.funcs = P.funcs)
    (hcs : ∀ i, Q.costCS i = P.costCS i) (st : AState) (cs : CallSite) :
    nonlocalCost Q st cs = nonlocalCost P st cs := by
  unfold nonlocalCost
  rcases hc : cs.callee with _ | g <;> simp only [hc]
  · exact hcs cs.csId
  · rw [isFunc_eq P Q hfuncs g]
    by_cases hg : isFunc P g = true
    · rw [if_pos hg, if_pos hg]
    · rw [if_neg hg, if_neg hg]
      exact hcs cs.csId

theorem nlSum_eq (P Q : Program) (hfuncs : Q.funcs = P.funcs)
    (hcs : ∀ i, Q.costCS i = P.costCS i) (st : AState) :
    ∀ L, nlSum Q st L = nlSum P st L := by
  intro L
  induction L with
  | nil => rfl
  | cons c cs ih =>
    simp only [nlSum]
    rw [nonlocalCost_eq P Q hfuncs hcs st c, ih]

theorem reachStep_subset (F : Func) :
    ∀ fuel visited frontier, (∀ b ∈ visited, b ∈ F.blocks) →
      ∀ b ∈ reachStep F fuel visited frontier, b ∈ F.blocks := by
  intro fuel
  induction fuel with
  | zero =>
    intro visited frontier hv b hb
    cases frontier <;> exact hv b hb
  | succ n ih =>
    intro visited frontier hv b hb
    cases frontier with
    | nil => exact hv b hb
    | cons x rest =>
      rw [show reachStep F (n + 1) visited (x :: rest)
          = if x ∈ visited ∨ x ∉ F.blocks then reachStep F n visited rest
            else reachStep F n (visited ++ [x]) (rest ++ F.succ x) from rfl] at hb
      by_cases hx : x ∈ visited ∨ x ∉ F.blocks
      · rw [if_pos hx] at hb
        exact ih visited rest hv b hb
      · rw [if_neg hx] at hb
        push_neg at hx
        refine ih (visited ++ [x]) (rest ++ F.succ x) ?_ b hb
        intro c hc
        rcases List.mem_append.mp hc with hc | hc
        · exact hv c hc
        · rw [List.mem_singleton.mp hc]
          exact hx.2

theorem reachable_subset (F : Func) : ∀ b ∈ reachable F, b ∈ F.blocks :=
  reachStep_subset F (bigFuel F) [] [F.entry] (by simp)

/-- Raising the cost of a block that belongs to no function other than f
leaves the built model of every other function unchanged. -/
theorem buildModel_shift_eq (P Q : Program) (f b0 : Nat)
    (hfuncs : Q.funcs = P.funcs)
    (hcs : ∀ i, Q.costCS i = P.costCS i)
    (hffall : ∀ g, Q.flowFacts g = P.flowFacts g)
    (hcost : ∀ b, b ≠ b0 → Q.costB b = P.costB b)
    (hb0 : ∀ g G, lookupFunc P g = some G → g ≠ f → b0 ∉ G.blocks)
    (st : AState) (g : Nat) (G : Func)
    (hg : g ≠ f) (hG : lookupFunc P g = some G) :
    buildModel Q st g G = buildModel P st g G := by
  have hcosts : ∀ L : List Nat, (∀ b ∈ L, b ∈ G.blocks) →
      L.map (fun b => (b, localCost Q st G b))
        = L.map (fun b => (b, localCost P st G b)) := by
    intro L
    induction L with
    | nil => intro _; rfl
    | cons x xs ihx =>
      intro hsub
      have hx : x ∈ G.blocks := hsub x (List.mem_cons_self ..)
      have hxx : x ≠ b0 := fun hc => hb0 g G hG hg (hc ▸ hx)
      simp only [List.map_cons]
      rw [ihx (fun b hb => hsub b (List.mem_cons_of_mem _ hb))]
      have hlcx : localCost Q st G x = localCost P st G x := by
        unfold localCost
        rw [hcost x hxx, nlSum_eq P Q hfuncs hcs st (G.calls x)]
      rw [hlcx]
  unfold buildModel
  rw [hcosts (reachable G) (reachable_subset G), hffall g]

theorem solveFunc_shift_eq (P Q : Program) (s : Solver) (f b0 : Nat)
    (hfuncs : Q.funcs = P.funcs)
    (hcs : ∀ i, Q.costCS i = P.costCS i)
    (hffall : ∀ g, Q.flowFacts g = P.flowFacts g)
    (hcost : ∀ b, b ≠ b0 → Q.costB b = P.costB b)
    (hb0 : ∀ g G, lookupFunc P g = some G → g ≠ f → b0 ∉ G.blocks)
    (st : AState) (g : Nat) (G : Func)
    (hg : g ≠ f) (hG : lookupFunc P g = some G) :
    solveFunc Q s st g G = solveFunc P s st g G := by
  unfold solveFunc
  rw [buildModel_shift_eq P Q f b0 hfuncs hcs hffall hcost hb0 st g G hg hG]

/-- solveFunc only writes the record of its own function. -/
theorem solveFunc_records_other (P : Program) (s : Solver) (st : AState)
    (g : Nat) (G : Func) (f' : Nat) (h : f' ≠ g) :
    ((solveFunc P s st g G).1).records f' = st.records f' := by
  unfold solveFunc
  rcases hm : findMalformed (buildModel P st g G) with _ | i
  · simp only [hm]
    by_cases he : (buildModel P st g G).edges = []
    · rw [if_pos he]
      exact setDone_other st g f' _ h
    · rw [if_neg he]
      rcases hs' : s (buildModel P st g G) with a | _ | _ | _
      · simp [finishSolved, markSolved, h]
      · simp [finishFail, setDone, markSolved, h]
      · simp [finishFail, setDone, markSolved, h]
      · simp [finishFail, setDone, markSolved, h]
  · simp only [hm]
    exact setDone_other st g f' _ h

/-- Callee passes agree step by step whenever the steps agree and keep the
pivot function InProgress. -/
theorem runList_congr_of (f : Nat)
    (step stepQ : AState → Nat → AState × Option Reason)
    (hstep : ∀ st g, st.records f = St.inProgress →
      stepQ st g = step st g ∧ (step st g).1.records f = St.inProgress) :
    ∀ L (st : AState), st.records f = St.inProgress →
      runList stepQ st L = runList step st L
      ∧ (runList step st L).1.records f = St.inProgress := by
  intro L
  induction L with
  | nil => intro st h; exact ⟨rfl, h⟩
  | cons x xs ih =>
    intro st h
    obtain ⟨he, hp⟩ := hstep st x h
    rcases hx : step st x with ⟨stx, rx⟩
    have heQ : stepQ st x = (stx, rx) := by rw [he, hx]
    rw [hx] at hp
    rcases rx with _ | r
    · obtain ⟨he2, hp2⟩ := ih stx hp
      constructor
      · simp only [runList, heQ, hx]
        exact he2
      · simp only [runList, hx]
        exact hp2
    · constructor
      · simp only [runList, heQ, hx]
      · simp only [runList, hx]
        exact hp

/-- The whole call-graph walk is unchanged by raising the cost of a block
that belongs only to the InProgress pivot function: every other function
builds an identical model, so every analysis step coincides, and the pivot
record stays InProgress throughout. -/
theorem analyzeF_shift_eq (P Q : Program) (s : Solver) (f b0 : Nat)
    (hfuncs : Q.funcs = P.funcs)
    (hcs : ∀ i, Q.costCS i = P.costCS i)
    (hffall : ∀ g, Q.flowFacts g = P.flowFacts g)
    (hcost : ∀ b, b ≠ b0 → Q.costB b = P.costB b)
    (hb0 : ∀ g G, lookupFunc P g = some G → g ≠ f → b0 ∉ G.blocks) :
    ∀ fuel (st : AState) (g : Nat), st.records f = St.inProgress →
      analyzeF Q s fuel st g = analyzeF P s fuel st g
      ∧ (analyzeF P s fuel st g).1.records f = St.inProgress := by
  intro fuel
  induction fuel with
  | zero => intro st g h; exact ⟨rfl, h⟩
  | succ n ih =>
    intro st g h
    rw [analyzeF_succ Q s n st g, analyzeF_succ P s n st g]
    unfold analyzeStep
    rcases hg : st.records g with _ | _ | w | r
    · simp only [hg]
      have hgf : g ≠ f := by
        intro hc
        rw [hc, h] at hg
        exact St.noConfusion hg
      rw [lookupFunc_eq P Q hfuncs g]
      rcases hG : lookupFunc P g with _ | G
      · simp only [hG]
        exact ⟨trivial, h⟩
      · simp only [hG]
        rw [directCallees_eq P Q hfuncs G]
        have h1 : (setInProgress st g).records f = St.inProgress := by
          rw [setInProgress_other st g f (Ne.symm hgf)]
          exact h
        obtain ⟨hLe, hLp⟩ := runList_congr_of f (analyzeF P s n) (analyzeF Q s n)
          (fun st' g' h' => ih st' g' h')
          (directCallees P G) (setInProgress st g) h1
        rcases hL : runList (analyzeF P s n) (setInProgress st g)
            (directCallees P G) with ⟨st2, r2⟩
        have hLQ : runList (analyzeF Q s n) (setInProgress st g)
            (directCallees P G) = (st2, r2) := by rw [hLe, hL]
        rw [hL] at hLp
        rcases r2 with _ | gr
        · simp only [hL, hLQ]
          refine ⟨solveFunc_shift_eq P Q s f b0 hfuncs hcs hffall hcost hb0
            st2 g G hgf hG, ?_⟩
          rw [solveFunc_records_other P s st2 g G f (Ne.symm hgf)]
          exact hLp
        · simp only [hL, hLQ]
          refine ⟨trivial, ?_⟩
          unfold finishFail
          rw [setDone_other st2 g f _ (Ne.symm hgf)]
          exact hLp
    · simp only [hg]
      exact ⟨trivial, h⟩
    · simp only [hg]
      exact ⟨trivial, h⟩
    · simp only [hg]
      exact ⟨trivial, h⟩

/-- C8: with the function table, the flow facts and the call-site costs
fixed, raising the CostProvider cost of one block of the analyzed function
(a block belonging to no other function, all other block costs unchanged)
never lowers the WCET computed by analyze, for any contract-satisfying
solver under which both analyses succeed.  The function may contain
arbitrary call sites: the callee pass of both runs is provably identical,
so the nonlocal call costs entering the objective agree. -/
theorem c8_monotonicity (P Q : Program) (s : Solver) (st0 : AState)
    (f : Nat) (F : Func) (b0 : Nat)
    (hs : SolverOk s)
    (hfuncs : Q.funcs = P.funcs)
    (hF : lookupFunc P f = some F)
    (hcs : ∀ i, Q.costCS i = P.costCS i)
    (hffall : ∀ g, Q.flowFacts g = P.flowFacts g)
    (hcost : ∀ b, b ≠ b0 → Q.costB b = P.costB b)
    (hmono : P.costB b0 ≤ Q.costB b0)
    (hb0 : ∀ g G, lookupFunc P g = some G → g ≠ f → b0 ∉ G.blocks)
    (h0 : st0.records f = St.notStarted)
    (hok : (analyze P s st0 f).2 = none) (hokQ : (analyze Q s st0 f).2 = none) :
    ∃ w wQ, (getWCET (analyze P s st0 f).1 f).1 = some w
      ∧ (getWCET (analyze Q s st0 f).1 f).1 = some wQ ∧ w ≤ wQ := by
  have hFQ : lookupFunc Q f = some F := by
    rw [lookupFunc_eq P Q hfuncs f]
    exact hF
  obtain ⟨st2, hrun, hmal, hcases⟩ := analyze_success_shape P s st0 f F h0 hF hok
  obtain ⟨st2Q, hrunQ, hmalQ, hcasesQ⟩ :=
    analyze_success_shape Q s st0 f F h0 hFQ hokQ
  have hlen : Q.funcs.length = P.funcs.length := by rw [hfuncs]
  obtain ⟨hRL, _⟩ := runList_congr_of f (analyzeF P s P.funcs.length)
    (analyzeF Q s P.funcs.length)
    (fun st' g' h' => analyzeF_shift_eq P Q s f b0 hfuncs hcs hffall hcost hb0
      P.funcs.length st' g' h')
    (directCallees P F) (setInProgress st0 f) (setInProgress_self st0 f)
  rw [hlen, directCallees_eq P Q hfuncs F, hRL, hrun] at hrunQ
  have hst2 : st2 = st2Q := congrArg Prod.fst hrunQ
  rw [← hst2] at hcasesQ
  have hMfacts : (buildModel P st2 f F).facts = (buildModel Q st2 f F).facts := by
    show P.flowFacts f = Q.flowFacts f
    exact (hffall f).symm
  rcases hcases with ⟨he, heq⟩ | ⟨a, hsa, hne, heq⟩
  · rcases hcasesQ with ⟨heQ, heqQ⟩ | ⟨aQ, hsaQ, hneQ, heqQ⟩
    · refine ⟨0, 0, ?_, ?_, le_refl 0⟩
      · rw [heq]; simp [getWCET, finishEmpty, setDone_self]
      · rw [heqQ]; simp [getWCET, finishEmpty, setDone_self]
    · exact absurd he hneQ
  · rcases hcasesQ with ⟨heQ, heqQ⟩ | ⟨aQ, hsaQ, hneQ, heqQ⟩
    · exact absurd heQ hne
    · have hsok := hs (buildModel P st2 f F)
      unfold SolverOkOn at hsok
      rw [hsa] at hsok
      have hfeasP := hsok.1
      have hsQok := hs (buildModel Q st2 f F)
      unfold SolverOkOn at hsQok
      rw [hsaQ] at hsQok
      obtain ⟨hfeasQ, hoptQ⟩ := hsQok
      have hfa : Feasible (buildModel Q st2 f F) a :=
        (feasible_same_struct (buildModel P st2 f F) (buildModel Q st2 f F) a
          rfl rfl rfl hMfacts).mp hfeasP
      have hlc : ∀ b ∈ reachable F, localCost P st2 F b ≤ localCost Q st2 F b := by
        intro b _
        unfold localCost
        rw [nlSum_eq P Q hfuncs hcs st2 (F.calls b)]
        by_cases hb : b = b0
        · subst hb
          omega
        · rw [hcost b hb]
      have hstep1 : objVal (buildModel P st2 f F) a
          ≤ objVal (buildModel Q st2 f F) a := by
        show objSum (edgesOf F) a
            ((reachable F).map (fun b => (b, localCost P st2 F b)))
          ≤ objSum (edgesOf F) a
            ((reachable F).map (fun b => (b, localCost Q st2 F b)))
        exact objSum_map_mono (edgesOf F) a
          (fun b => localCost P st2 F b) (fun b => localCost Q st2 F b)
          (reachable F) hlc
      have hstep2 := hoptQ a hfa
      refine ⟨objVal (buildModel P st2 f F) a,
        objVal (buildModel Q st2 f F) aQ, ?_, ?_, le_trans hstep1 hstep2⟩
      · rw [heq]; simp [getWCET, finishSolved]
      · rw [heqQ]; simp [getWCET, finishSolved]

/-- The second program of the monotonicity witness: the entry-block cost is
raised from 1 to 2, everything else as in the concrete scenario. -/
def P8 : Program :=
  { funcs := [(0, F1)]
    costB := fun b => if b = 0 then 2 else if b = 1 then 5 else if b = 2 then 1 else 0
    costCS := fun _ => 0
    flowFacts := P1.flowFacts }

/-- The model of the raised-cost program. -/
def c8Model : Model := { c1Model with costs := [(0, 2), (1, 5), (2, 1)] }

/-- A solver witness answering both monotonicity models optimally. -/
def c18Solver : Solver := fun M =>
  if M = c1Model then SolverResult.optimal c1a
  else if M = c8Model then SolverResult.optimal c1a
  else SolverResult.numFailure

/-- The objective of the raised-cost model, written out. -/
theorem c8_objVal (x : Edge → Nat) :
    objVal c8Model x =
      2 * x (Node.entry, Node.blk 0)
      + 5 * (x (Node.blk 0, Node.blk 1) + x (Node.blk 1, Node.blk 1))
      + 1 * x (Node.blk 1, Node.blk 2) := by
  simp [objVal, objSum, sumIn, c8Model, c1Model, c1Edges]
  ring

/-- No feasible assignment of the raised-cost model exceeds objective 53. -/
theorem c8_opt (x : Edge → Nat) (hx : Feasible c8Model x) :
    objVal c8Model x ≤ 53 := by
  obtain ⟨h1, h2, h3, h4, h5⟩ := c1_shape x hx
  rw [c8_objVal]
  omega

/-- The two-model witness solver satisfies the solver contract. -/
theorem c18Solver_ok : SolverOk c18Solver := by
  intro M
  unfold SolverOkOn c18Solver
  by_cases h1 : M = c1Model
  · subst h1
    rw [if_pos rfl]
    refine ⟨by decide, ?_⟩
    intro x hx
    have hub := c1_opt x hx
    have hval : objVal c1Model c1a = 52 := by decide
    omega
  · rw [if_neg h1]
    by_cases h8 : M = c8Model
    · subst h8
      rw [if_pos rfl]
      refine ⟨by decide, ?_⟩
      intro x hx
      have hub := c8_opt x hx
      have hval : objVal c8Model c1a = 53 := by decide
      omega
    · rw [if_neg h8]
      trivial

/-- Witness for c8_monotonicity: raised entry cost yields WCET 53 against
52. -/
theorem c8_monotonicity_witness :
    ∃ w wQ, (getWCET (analyze P1 c18Solver initState 0).1 0).1 = some w
      ∧ (getWCET (analyze P8 c18Solver initState 0).1 0).1 = some wQ
      ∧ w ≤ wQ :=
  c8_monotonicity P1 P8 c18Solver initState 0 F1 0
    c18Solver_ok rfl rfl (fun _ => rfl) (fun _ => rfl)
    (by intro b hb; simp [P1, P8, hb]) (by decide)
    (by
      intro g G hgG hgne
      exfalso
      have hbeq : (g == 0) = false := beq_eq_false_iff_ne.mpr hgne
      simp [lookupFunc, P1, List.lookup, hbeq] at hgG)
    rfl rfl rfl

/-! ## Whole-cache invalidation -/

theorem clearResults_records_self (P : Program) (st : AState) (f : Nat) :
    (clearResults P st f).records f = St.notStarted := by
  simp [clearResults]

theorem clearResults_records_other (P : Program) (st : AState) (f g : Nat)
    (h : g ≠ f) : (clearResults P st f).records g = st.records g := by
  simp [clearResults, h]

theorem clearResults_keeps_notStarted (P : Program) (st : AState) (f g : Nat)
    (h : st.records g = St.notStarted) :
    (clearResults P st f).records g = St.notStarted := by
  by_cases hg : g = f
  · subst hg; exact clearResults_records_self ..
  · rw [clearResults_records_other P st f g hg]; exact h

theorem clearAll_keeps_notStarted (P : Program) :
    ∀ L (st : AState) (g : Nat), st.records g = St.notStarted →
      (clearAll P st L).records g = St.notStarted := by
  intro L
  induction L with
  | nil => intro st g h; exact h
  | cons x xs ih =>
    intro st g h
    exact ih (clearResults P st x) g (clearResults_keeps_notStarted P st x g h)

theorem clearAll_records_mem (P : Program) :
    ∀ L (st : AState) (g : Nat), g ∈ L →
      (clearAll P st L).records g = St.notStarted := by
  intro L
  induction L with
  | nil => intro st g h; simp at h
  | cons x xs ih =>
    intro st g h
    rcases List.mem_cons.mp h with hg | hg
    · subst hg
      exact clearAll_keeps_notStarted P xs (clearResults P st g) g
        (clearResults_records_self ..)
    · exact ih (clearResults P st x) g hg

theorem clearAll_records_notMem (P : Program) :
    ∀ L (st : AState) (g : Nat), g ∉ L →
      (clearAll P st L).records g = st.records g := by
  intro L
  induction L with
  | nil => intro st g _; rfl
  | cons x xs ih =>
    intro st g h
    rw [show clearAll P st (x :: xs) = clearAll P (clearResults P st x) xs from rfl,
      ih (clearResults P st x) g (fun hc => h (List.mem_cons_of_mem x hc)),
      clearResults_records_other P st x g (fun hc => h (hc ▸ List.mem_cons_self ..))]

theorem clearResults_execFreq_none (P : Program) (st : AState) (f b : Nat)
    (h : st.execFreq b = none) : (clearResults P st f).execFreq b = none := by
  rcases hF : lookupFunc P f with _ | F <;> simp [clearResults, hF, h]

theorem clearAll_execFreq_none (P : Program) :
    ∀ L (st : AState) (b : Nat), st.execFreq b = none →
      (clearAll P st L).execFreq b = none := by
  intro L
  induction L with
  | nil => intro st b h; exact h
  | cons x xs ih =>
    intro st b h
    exact ih (clearResults P st x) b (clearResults_execFreq_none P st x b h)

theorem clearResults_execFreq_owned (P : Program) (st : AState) (g : Nat)
    (F : Func) (b : Nat) (hF : lookupFunc P g = some F) (hb : b ∈ F.blocks) :
    (clearResults P st g).execFreq b = none := by
  simp [clearResults, hF, hb]

theorem clearAll_execFreq_owned (P : Program) :
    ∀ L (st : AState) (b g : Nat) (F : Func), g ∈ L →
      lookupFunc P g = some F → b ∈ F.blocks →
      (clearAll P st L).execFreq b = none := by
  intro L
  induction L with
  | nil => intro st b g F h; simp at h
  | cons x xs ih =>
    intro st b g F h hF hb
    rcases List.mem_cons.mp h with hg | hg
    · subst hg
      exact clearAll_execFreq_none P xs (clearResults P st g) b
        (clearResults_execFreq_owned P st g F b hF hb)
    · exact ih (clearResults P st x) b g F hg hF hb

theorem clearResults_edgeFreq_none (P : Program) (st : AState) (f g : Nat)
    (h : st.edgeFreq g = none) : (clearResults P st f).edgeFreq g = none := by
  by_cases hg : g = f <;> simp [clearResults, hg, h]

theorem clearAll_edgeFreq_mem (P : Program) :
    ∀ L (st : AState) (g : Nat), g ∈ L →
      (clearAll P st L).edgeFreq g = none := by
  intro L
  induction L with
  | nil => intro st g h; simp at h
  | cons x xs ih =>
    intro st g h
    rcases List.mem_cons.mp h with hg | hg
    · subst hg
      have hcleared : (clearResults P st g).edgeFreq g = none := by
        simp [clearResults]
      have : ∀ M (stM : AState) (gM : Nat), stM.edgeFreq gM = none →
          (clearAll P stM M).edgeFreq gM = none := by
        intro M
        induction M with
        | nil => intro stM gM hM; exact hM
        | cons y ys ihy =>
          intro stM gM hM
          exact ihy (clearResults P stM y) gM
            (clearResults_edgeFreq_none P stM y gM hM)
      exact this xs (clearResults P st g) g hcleared
    · exact ih (clearResults P st x) g hg

theorem clearAll_edgeFreq_notMem (P : Program) :
    ∀ L (st : AState) (g : Nat), g ∉ L →
      (clearAll P st L).edgeFreq g = st.edgeFreq g := by
  intro L
  induction L with
  | nil => intro st g _; rfl
  | cons x xs ih =>
    intro st g h
    rw [show clearAll P st (x :: xs) = clearAll P (clearResults P st x) xs from rfl,
      ih (clearResults P st x) g (fun hc => h (List.mem_cons_of_mem x hc))]
    have hgx : g ≠ x := fun hc => h (hc ▸ List.mem_cons_self ..)
    simp [clearResults, hgx]

/-- C10: reset clears the entire analysis state at once - afterwards no
function has a WCET or is in progress and no block or function has cached
frequencies - and it is equivalent to clearResults applied to every
function: on any list L covering all touched records and caches, the folded
clearResults agrees pointwise with reset. -/
theorem c10_reset (P : Program) (st : AState) (L : List Nat)
    (hrec : ∀ g, st.records g ≠ St.notStarted → g ∈ L)
    (hfreq : ∀ b, st.execFreq b ≠ none →
      ∃ g F, g ∈ L ∧ lookupFunc P g = some F ∧ b ∈ F.blocks)
    (hedge : ∀ g, st.edgeFreq g ≠ none → g ∈ L) :
    (∀ f, hasWCET (reset st) f = false ∧ inProgressQ (reset st) f = false)
    ∧ (∀ b, (reset st).execFreq b = none)
    ∧ (∀ g, (reset st).edgeFreq g = none)
    ∧ (∀ g, (clearAll P st L).records g = (reset st).records g)
    ∧ (∀ b, (clearAll P st L).execFreq b = (reset st).execFreq b)
    ∧ (∀ g, (clearAll P st L).edgeFreq g = (reset st).edgeFreq g) := by
  refine ⟨fun f => ⟨rfl, rfl⟩, fun b => rfl, fun g => rfl, ?_, ?_, ?_⟩
  · intro g
    show (clearAll P st L).records g = St.notStarted
    by_cases hg : g ∈ L
    · exact clearAll_records_mem P L st g hg
    · rw [clearAll_records_notMem P L st g hg]
      by_contra hc
      exact hg (hrec g hc)
  · intro b
    show (clearAll P st L).execFreq b = none
    by_cases hb : st.execFreq b = none
    · exact clearAll_execFreq_none P L st b hb
    · obtain ⟨g, F, hgL, hgF, hbF⟩ := hfreq b hb
      exact clearAll_execFreq_owned P L st b g F hgL hgF hbF
  · intro g
    show (clearAll P st L).edgeFreq g = none
    by_cases hg : g ∈ L
    · exact clearAll_edgeFreq_mem P L st g hg
    · rw [clearAll_edgeFreq_notMem P L st g hg]
      by_contra hc
      exact hg (hedge g hc)

/-- The analysis state left behind by the solved concrete scenario. -/
def dirtySt : AState := (analyze P1 c1Solver initState 0).1

theorem dirtySt_expand :
    dirtySt = (finishSolved (markSolved (setInProgress initState 0) 0)
      0 c1Model c1a).1 := rfl

/-- Witness for c10_reset on the state left by the solved concrete
scenario. -/
theorem c10_reset_witness :
    hasWCET (reset dirtySt) 0 = false
    ∧ (reset dirtySt).execFreq 1 = none
    ∧ (clearAll P1 dirtySt [0]).records 0 = (reset dirtySt).records 0
    ∧ (clearAll P1 dirtySt [0]).execFreq 1 = (reset dirtySt).execFreq 1 := by
  obtain ⟨h1, h2, h3, h4, h5, h6⟩ := c10_reset P1 dirtySt [0]
    (by
      intro g h
      by_cases hg : g = 0
      · simp [hg]
      · exfalso
        apply h
        rw [dirtySt_expand]
        simp [finishSolved, markSolved, setInProgress, initState, hg])
    (by
      intro b h
      by_cases hb : b ∈ c1Model.blocks
      · exact ⟨0, F1, by simp, rfl, hb⟩
      · exfalso
        apply h
        rw [dirtySt_expand]
        simp [finishSolved, markSolved, setInProgress, initState, hb])
    (by
      intro g h
      by_cases hg : g = 0
      · simp [hg]
      · exfalso
        apply h
        rw [dirtySt_expand]
        simp [finishSolved, markSolved, setInProgress, initState, hg])
  exact ⟨(h1 0).1, h2 1, h4 0, h5 1⟩

end Ipet
